import Mathlib

/-!
Shallow embedding of `py_stringsimjoin`'s prefix filter
(`py_stringsimjoin/filter/prefix_filter.py`) and verification of its
specification.

Modelling conventions:
* A table cell is `Option String`; `none` stands for Python's `None`
  (a null / missing value).
* Python truthiness of a string-or-None value: `None` and `""` are falsy.
* Python's `str()` applied to a cell renders `None` as the literal
  string `"None"` (as CPython does); this is observable in
  `filter_tables`, which applies `str` to the right filter attribute
  *before* the emptiness check.
* The helper modules imported by `prefix_filter.py`
  (`filter_utils.get_prefix_length`, `token_ordering.*`,
  `prefix_index.PrefixIndex`, output-row helpers) are not part of the
  source tree; they are modelled from the specification, and each such
  definition is marked `Modelled from the spec:` in its doc comment.
* The similarity measure and threshold only ever reach the code through
  `get_prefix_length(n, sim_measure_type, threshold)`; since the spec
  leaves the per-measure closed form open, a `PrefixFilter` carries the
  induced function `n ↦ prefix length` directly.
-/

namespace PySSJ

/-- A table cell: `none` models Python's `None`/null. -/
abbrev Cell := Option String

/-- A record row: the ordered list of its cells. -/
abbrev Row := List Cell

/-- A token produced by the tokenizer. -/
abbrev Token := String

/-- Python truthiness of a string-or-None value: `None` and `""` are falsy. -/
def pyTruthy : Cell → Bool
  | none => false
  | some s => !s.isEmpty

/-- Python `str()` on a cell: `None` renders as the (truthy) string `"None"`. -/
def pyStr : Cell → String
  | none => "None"
  | some s => s

/-- Field access by positional index in a row. -/
def cellAt (row : Row) (i : Nat) : Cell := row.getD i none

/-- Modelled from the spec: document frequency of a token over a list of
token sets — the number of token sets that contain it (spec §4.1,
`gen_token_ordering_*` counts how many records contain each token). -/
def doc_freq (sets : List (List Token)) (t : Token) : Nat :=
  sets.countP (fun s => decide (t ∈ s))

/-- Lexicographic order on character lists, by code point (executable,
kernel-reducible). -/
def chLe : List Char → List Char → Bool
  | [], _ => true
  | _ :: _, [] => false
  | a :: as, b :: bs => if a = b then chLe as bs else decide (a.toNat < b.toNat)

/-- Lexical order on tokens: lexicographic comparison of their
characters. -/
def strLe (a b : Token) : Bool := chLe a.data b.data

/-- Modelled from the spec: the order on tokens induced by a token
ordering built from a frequency function — ascending frequency, ties
broken by lexical order (spec §4.1: sort by (frequency ascending, token
value ascending)).  Sorting a token set by its assigned ranks is the same
as sorting it by this relation. -/
def tokOrd (f : Token → Nat) (a b : Token) : Prop :=
  f a < f b ∨ (f a = f b ∧ strLe a b = true)

instance (f : Token → Nat) : DecidableRel (tokOrd f) := fun _x _y =>
  inferInstanceAs (Decidable (_ ∨ _ ∧ _))

/-- Modelled from the spec: `order_using_token_ordering` — render a token
set as the sequence sorted by ascending rank under the token ordering
(spec §4.2, §3 Ordered Token Sequence). -/
def order_using_token_ordering (f : Token → Nat) (tokens : List Token) : List Token :=
  List.insertionSort (tokOrd f) tokens

/-- The `PrefixFilter` object (from the source: tokenizer,
sim_measure_type, threshold).  The measure and threshold are only ever
consumed through `get_prefix_length(n, sim_measure_type, threshold)`,
whose per-measure closed form the spec leaves open (§4.3, §9), so the
structure carries the induced function `n ↦ prefix length`. -/
structure PrefixFilter where
  tokenizer : String → List Token
  get_prefix_length : Nat → Nat

/-- Embedding of `PrefixFilter.filter_pair` from the source: drop (`true`) if either
input is falsy; otherwise tokenize and deduplicate both sides, build a
token ordering over the two token sets, order both, take each side's
prefix, and keep (`false`) iff the prefixes intersect. -/
def PrefixFilter.filter_pair (pf : PrefixFilter) (lstring rstring : Cell) : Bool :=
  if !pyTruthy lstring || !pyTruthy rstring then true
  else
    let ltokens := (pf.tokenizer (pyStr lstring)).dedup
    let rtokens := (pf.tokenizer (pyStr rstring)).dedup
    let f := doc_freq [ltokens, rtokens]
    let ordered_ltokens := order_using_token_ordering f ltokens
    let ordered_rtokens := order_using_token_ordering f rtokens
    let l_prefix_length := pf.get_prefix_length ordered_ltokens.length
    let r_prefix_length := pf.get_prefix_length ordered_rtokens.length
    let prefix_overlap := (ordered_ltokens.take l_prefix_length).filter
      (fun t => decide (t ∈ ordered_rtokens.take r_prefix_length))
    prefix_overlap.isEmpty

/-- Split a character list on spaces, dropping empty words (helper for
the concrete test tokenizer; `acc` is the current word, reversed). -/
def wordsAux : List Char → List Char → List (List Char)
  | [], acc => if acc.isEmpty then [] else [acc.reverse]
  | c :: cs, acc =>
    if c = ' ' then
      if acc.isEmpty then wordsAux cs [] else acc.reverse :: wordsAux cs []
    else wordsAux cs (c :: acc)

/-- Whitespace tokenizer used for concrete test inputs. -/
def wsTokenize (s : String) : List Token :=
  (wordsAux s.data []).map String.mk

/-- A concrete filter used for witnesses: whitespace tokens, prefix
length `n` (no pruning, as at threshold 0). -/
def pfAll : PrefixFilter := ⟨wsTokenize, fun n => n⟩


/-- An input table: column header names plus rows. -/
structure Table where
  header : List String
  rows : List Row
deriving DecidableEq

/-- The error surfaced when a configured attribute name is absent from a
table's columns (the spec's `UnknownField`; Python's `list.index` raising
`ValueError` in the source). -/
inductive FilterError where
  | unknownField (name : String)
deriving DecidableEq

/-- Embedding of `columns.index(attr)`: the position of the first occurrence of
`attr`, or the `UnknownField` error when absent. -/
def colIdx (cols : List String) (attr : String) : Except FilterError Nat :=
  match cols with
  | [] => Except.error (FilterError.unknownField attr)
  | c :: rest =>
    if c = attr then Except.ok 0
    else
      match colIdx rest attr with
      | Except.ok i => Except.ok (i + 1)
      | Except.error e => Except.error e

/-- Resolve a list of output attribute names, failing on the first
unknown one (the source's `for attr in l_out_attrs:` index loops). -/
def colIdxList (cols : List String) (attrs : List String) :
    Except FilterError (List Nat) :=
  match attrs with
  | [] => Except.ok []
  | a :: rest => do
    let i ← colIdx cols a
    let is ← colIdxList cols rest
    return (i :: is)

/-- The column indices resolved during the validation phase of
`filter_tables`. -/
structure ResolvedCols where
  l_key_idx : Nat
  l_filter_idx : Nat
  l_out_idx : List Nat
  r_key_idx : Nat
  r_filter_idx : Nat
  r_out_idx : List Nat
deriving DecidableEq

/-- The validation phase of `filter_tables` (source lines 81–96): resolve
key, filter and output attribute names to column indices, left table
attributes first, failing on the first unknown name. -/
def resolveCols (lheader rheader : List String)
    (l_key_attr r_key_attr l_filter_attr r_filter_attr : String)
    (l_out_attrs r_out_attrs : Option (List String)) :
    Except FilterError ResolvedCols := do
  let lk ← colIdx lheader l_key_attr
  let lf ← colIdx lheader l_filter_attr
  let lo ← colIdxList lheader (l_out_attrs.getD [])
  let rk ← colIdx rheader r_key_attr
  let rf ← colIdx rheader r_filter_attr
  let ro ← colIdxList rheader (r_out_attrs.getD [])
  return ⟨lk, lf, lo, rk, rf, ro⟩

/-- Insert into a Python-dict association list: overwriting an existing
key keeps its position in the list, a fresh key is appended at the end
(CPython dict semantics). -/
def dictInsert (d : List (Cell × Row)) (k : Cell) (v : Row) : List (Cell × Row) :=
  match d with
  | [] => [(k, v)]
  | e :: rest => if e.1 = k then (k, v) :: rest else e :: dictInsert rest k v

/-- The source's dict-building loops (`ltable_dict[l_row[key_idx]] =
l_row`): iterate the rows in order; a later row with a duplicated key
overwrites the earlier one. -/
def buildDict (rows : List Row) (key_idx : Nat) : List (Cell × Row) :=
  rows.foldl (fun d row => dictInsert d (cellAt row key_idx) row) []

/-- Embedding of `d[k]` lookup: the row stored under key `k` (defaults to `[]`; in the
source every lookup key is present by construction). -/
def dictGet (d : List (Cell × Row)) (k : Cell) : Row :=
  match d.find? (fun e => decide (e.1 = k)) with
  | some e => e.2
  | none => []

/-- Modelled from the spec: `gen_token_ordering_for_tables` — one
ordering over both collections' filter attributes, the tokenizer applied
per record and tokens deduplicated per record before counting document
frequency (spec §4.1, §4.5 step 2).  The ordering is represented by its
frequency function; ranks are assigned by (frequency ascending, token
ascending), i.e. sorting by rank is sorting by `tokOrd` of this
function. -/
def gen_token_ordering_for_tables (tok : String → List Token)
    (lrows rrows : List Row) (l_filter_idx r_filter_idx : Nat) : Token → Nat :=
  doc_freq (lrows.map (fun r => (tok (pyStr (cellAt r l_filter_idx))).dedup) ++
            rrows.map (fun r => (tok (pyStr (cellAt r r_filter_idx))).dedup))

/-- Modelled from the spec: `PrefixIndex.build` (§4.4) — for every record
of the indexed (left) dictionary, skip it if its text field is empty or
null; otherwise compute its ordered token sequence and its prefix length
and register the record's key under each token of that prefix.  The built
index is the resulting token→key association list. -/
def prefix_index_build (pf : PrefixFilter) (f : Token → Nat)
    (ldict : List (Cell × Row)) (filter_idx : Nat) : List (Token × Cell) :=
  ldict.flatMap (fun e =>
    match cellAt e.2 filter_idx with
    | none => []
    | some s =>
      if s.isEmpty then []
      else
        let ordered := order_using_token_ordering f ((pf.tokenizer s).dedup)
        (ordered.take (pf.get_prefix_length ordered.length)).map (fun t => (t, e.1)))

/-- Modelled from the spec: `PrefixIndex.probe` (§4.4) — the record keys
registered under a token; empty for a token never seen during build. -/
def probe (index : List (Token × Cell)) (t : Token) : List Cell :=
  (index.filter (fun e => decide (e.1 = t))).map (fun e => e.2)

/-- One output candidate row: candidate id, left key, right key, and the
projected output attribute values from each side (both empty when no
output attributes were requested, as in the source's bare
`[candset_id, cand, r_id]` rows).  Modelled from the spec:
`get_output_row_from_tables` (§4.5 step 4d). -/
structure OutRow where
  _id : Nat
  l_key : Cell
  r_key : Cell
  l_fields : List Cell
  r_fields : List Cell
deriving DecidableEq

/-- The candidate left keys for one right row: probe the prefix index
with every token of the right record's prefix and union the hits (the
source's `candidates` set). -/
def candidatesOf (pf : PrefixFilter) (f : Token → Nat) (index : List (Token × Cell))
    (r_filter_idx : Nat) (r_row : Row) : List Cell :=
  let r_string := pyStr (cellAt r_row r_filter_idx)
  let r_tokens := (pf.tokenizer r_string).dedup
  let r_ordered := order_using_token_ordering f r_tokens
  let r_prefix_length := pf.get_prefix_length r_ordered.length
  ((r_ordered.take r_prefix_length).flatMap (probe index)).dedup

/-- The source's inner `for cand in candidates` loop: one output row per
candidate, with consecutive candidate ids starting at `cid`. -/
def emitCands (ldict : List (Cell × Row)) (c : ResolvedCols) (has_out : Bool)
    (r_key : Cell) (r_row : Row) : List Cell → Nat → List OutRow
  | [], _ => []
  | cand :: rest, cid =>
    let row : OutRow :=
      if has_out then
        ⟨cid, cand, r_key,
         c.l_out_idx.map (cellAt (dictGet ldict cand)),
         c.r_out_idx.map (cellAt r_row)⟩
      else ⟨cid, cand, r_key, [], []⟩
    row :: emitCands ldict c has_out r_key r_row rest (cid + 1)

/-- The source's outer loop over `rtable_dict.values()`: skip right rows
whose stringified filter attribute is empty, emit one row per candidate,
threading the running candidate id. -/
def filterLoop (pf : PrefixFilter) (f : Token → Nat) (index : List (Token × Cell))
    (ldict : List (Cell × Row)) (c : ResolvedCols) (has_out : Bool) :
    List Row → Nat → List OutRow
  | [], _ => []
  | r_row :: rest, cid =>
    let r_id := cellAt r_row c.r_key_idx
    let r_string := pyStr (cellAt r_row c.r_filter_idx)
    if r_string.isEmpty then filterLoop pf f index ldict c has_out rest cid
    else
      let block := emitCands ldict c has_out r_id r_row
          (candidatesOf pf f index c.r_filter_idx r_row) cid
      block ++ filterLoop pf f index ldict c has_out rest (cid + block.length)

/-- Modelled from the spec: `get_output_header_from_tables` — header
`[_id, left key name, right key name, left output fields prefixed, right
output fields prefixed]` (§4.5 step 5). -/
def get_output_header (l_key_attr r_key_attr : String)
    (l_out_attrs r_out_attrs : Option (List String))
    (l_out_pfx r_out_pfx : String) : List String :=
  "_id" :: l_key_attr :: r_key_attr ::
    ((l_out_attrs.getD []).map (fun a => l_out_pfx ++ a) ++
     (r_out_attrs.getD []).map (fun a => r_out_pfx ++ a))

/-- The produced candidate table. -/
structure OutTable where
  header : List String
  rows : List OutRow
deriving DecidableEq

deriving instance DecidableEq for Except

/-- Embedding of `PrefixFilter.filter_tables` from the source: resolve all configured
column names to indices (failing fast on an unknown attribute), build the
two key dictionaries, build the token ordering over both dictionaries'
filter attributes, build the prefix index over the left dictionary, then
probe it with each right record's prefix tokens and emit one output row
per surviving candidate pair, ids starting at 1. -/
def PrefixFilter.filter_tables (pf : PrefixFilter) (ltable rtable : Table)
    (l_key_attr r_key_attr l_filter_attr r_filter_attr : String)
    (l_out_attrs r_out_attrs : Option (List String))
    (l_out_pfx r_out_pfx : String) : Except FilterError OutTable :=
  match resolveCols ltable.header rtable.header l_key_attr r_key_attr
      l_filter_attr r_filter_attr l_out_attrs r_out_attrs with
  | Except.error e => Except.error e
  | Except.ok c =>
    let ltable_dict := buildDict ltable.rows c.l_key_idx
    let rtable_dict := buildDict rtable.rows c.r_key_idx
    let token_ordering := gen_token_ordering_for_tables pf.tokenizer
        (ltable_dict.map (fun e => e.2)) (rtable_dict.map (fun e => e.2))
        c.l_filter_idx c.r_filter_idx
    let index := prefix_index_build pf token_ordering ltable_dict c.l_filter_idx
    let has_out := l_out_attrs.isSome || r_out_attrs.isSome
    let rows := filterLoop pf token_ordering index ltable_dict c has_out
        (rtable_dict.map (fun e => e.2)) 1
    Except.ok ⟨get_output_header l_key_attr r_key_attr l_out_attrs r_out_attrs
        l_out_pfx r_out_pfx, rows⟩

/-- Spec-side expression (follows the claim's words): the first
`l_prefix_length` tokens of the left ordered token sequence, the prefix
length computed from the left token-set size. -/
def spec_left_prefix_tokens (pf : PrefixFilter) (ls rs : String) : List Token :=
  let lt := (pf.tokenizer ls).dedup
  let rt := (pf.tokenizer rs).dedup
  let ol := order_using_token_ordering (doc_freq [lt, rt]) lt
  ol.take (pf.get_prefix_length ol.length)

/-- Spec-side expression (follows the claim's words): the first
`r_prefix_length` tokens of the right ordered token sequence. -/
def spec_right_prefix_tokens (pf : PrefixFilter) (ls rs : String) : List Token :=
  let lt := (pf.tokenizer ls).dedup
  let rt := (pf.tokenizer rs).dedup
  let orr := order_using_token_ordering (doc_freq [lt, rt]) rt
  orr.take (pf.get_prefix_length orr.length)

/-- The (left key, right key) pair carried by an output row. -/
def pairOf (r : OutRow) : Cell × Cell := (r.l_key, r.r_key)

/-- The candidate pairs of a `filter_tables` result (empty on error). -/
def out_pairs (res : Except FilterError OutTable) : List (Cell × Cell) :=
  match res with
  | Except.ok t => t.rows.map pairOf
  | Except.error _ => []

/-- The number of candidate rows of a `filter_tables` result (0 on
error). -/
def out_count (res : Except FilterError OutTable) : Nat :=
  match res with
  | Except.ok t => t.rows.length
  | Except.error _ => 0

/-- The last row of `rows` whose cell at `key_idx` equals `key` (the row
a Python dict keeps for a duplicated key), as an `Option`. -/
def lastRowWith (rows : List Row) (key_idx : Nat) (key : Cell) : Option Row :=
  rows.reverse.find? (fun r => decide (cellAt r key_idx = key))

/-- The candidate pairs contributed by one right row: none when its
stringified filter attribute is empty, otherwise one pair per candidate
left key. -/
def right_block (pf : PrefixFilter) (f : Token → Nat) (idx : List (Token × Cell))
    (c : ResolvedCols) (r : Row) : List (Cell × Cell) :=
  if (pyStr (cellAt r c.r_filter_idx)).isEmpty = true then []
  else (candidatesOf pf f idx c.r_filter_idx r).map
    (fun cd => (cd, cellAt r c.r_key_idx))

/-! ### Order-theoretic facts about the token ordering -/

theorem char_eq_of_toNat_eq {a b : Char} (h : a.toNat = b.toNat) : a = b :=
  Char.ext (congrArg UInt32.mk (BitVec.eq_of_toNat_eq h))

theorem chLe_total : ∀ x y : List Char, chLe x y = true ∨ chLe y x = true
  | [], _ => Or.inl rfl
  | _ :: _, [] => Or.inr rfl
  | a :: as, b :: bs => by
    by_cases hab : a = b
    · subst hab
      simpa [chLe] using chLe_total as bs
    · have hba : ¬ b = a := fun h => hab h.symm
      rcases Nat.lt_or_ge a.toNat b.toNat with h | h
      · exact Or.inl (by simp [chLe, hab, h])
      · have : b.toNat < a.toNat := by
          rcases Nat.lt_or_eq_of_le h with h' | h'
          · exact h'
          · exact absurd (char_eq_of_toNat_eq h'.symm) hab
        exact Or.inr (by simp [chLe, hba, this])

theorem chLe_trans : ∀ {x y z : List Char},
    chLe x y = true → chLe y z = true → chLe x z = true
  | [], _, _, _, _ => rfl
  | a :: as, [], _, hxy, _ => by simp [chLe] at hxy
  | a :: as, b :: bs, [], _, hyz => by simp [chLe] at hyz
  | a :: as, b :: bs, c :: cs, hxy, hyz => by
    by_cases hab : a = b <;> by_cases hbc : b = c
    · subst hab; subst hbc
      simp only [chLe, if_pos rfl] at hxy hyz ⊢
      exact chLe_trans hxy hyz
    · subst hab
      simpa [chLe, hbc] using hyz
    · subst hbc
      simpa [chLe, hab] using hxy
    · have h1 : a.toNat < b.toNat := by simpa [chLe, hab] using hxy
      have h2 : b.toNat < c.toNat := by simpa [chLe, hbc] using hyz
      have hac : ¬ a = c := fun h => by
        subst h
        exact Nat.lt_irrefl _ (Nat.lt_trans h1 h2)
      simp [chLe, hac, Nat.lt_trans h1 h2]

theorem chLe_antisymm : ∀ {x y : List Char},
    chLe x y = true → chLe y x = true → x = y
  | [], [], _, _ => rfl
  | [], _ :: _, _, hyx => by simp [chLe] at hyx
  | _ :: _, [], hxy, _ => by simp [chLe] at hxy
  | a :: as, b :: bs, hxy, hyx => by
    by_cases hab : a = b
    · subst hab
      simp only [chLe, if_pos rfl] at hxy hyx
      exact congrArg (a :: ·) (chLe_antisymm hxy hyx)
    · have hba : ¬ b = a := fun h => hab h.symm
      have h1 : a.toNat < b.toNat := by simpa [chLe, hab] using hxy
      have h2 : b.toNat < a.toNat := by simpa [chLe, hba] using hyx
      exact absurd (Nat.lt_trans h1 h2) (Nat.lt_irrefl _)

theorem strLe_total (a b : Token) : strLe a b = true ∨ strLe b a = true :=
  chLe_total a.data b.data

theorem strLe_trans {a b c : Token} (h1 : strLe a b = true)
    (h2 : strLe b c = true) : strLe a c = true :=
  chLe_trans h1 h2

theorem strLe_antisymm {a b : Token} (h1 : strLe a b = true)
    (h2 : strLe b a = true) : a = b :=
  congrArg String.mk (chLe_antisymm h1 h2)

instance (f : Token → Nat) : IsTotal Token (tokOrd f) where
  total a b := by
    rcases Nat.lt_trichotomy (f a) (f b) with h | h | h
    · exact Or.inl (Or.inl h)
    · rcases strLe_total a b with hs | hs
      · exact Or.inl (Or.inr ⟨h, hs⟩)
      · exact Or.inr (Or.inr ⟨h.symm, hs⟩)
    · exact Or.inr (Or.inl h)

instance (f : Token → Nat) : IsTrans Token (tokOrd f) where
  trans a b c hab hbc := by
    rcases hab with h1 | ⟨h1, hs1⟩ <;> rcases hbc with h2 | ⟨h2, hs2⟩
    · exact Or.inl (Nat.lt_trans h1 h2)
    · exact Or.inl (h2 ▸ h1)
    · exact Or.inl (h1 ▸ h2)
    · exact Or.inr ⟨h1.trans h2, strLe_trans hs1 hs2⟩

instance (f : Token → Nat) : IsAntisymm Token (tokOrd f) where
  antisymm a b hab hba := by
    rcases hab with h1 | ⟨h1, hs1⟩
    · rcases hba with h2 | ⟨h2, _⟩
      · exact absurd (Nat.lt_trans h1 h2) (Nat.lt_irrefl _)
      · exact absurd h1 (h2 ▸ Nat.lt_irrefl _)
    · rcases hba with h2 | ⟨h2, hs2⟩
      · exact absurd h2 (h1 ▸ Nat.lt_irrefl _)
      · exact strLe_antisymm hs1 hs2

/-- Ordering a token set is canonical: any two enumerations of the same
token set order to the same sequence. -/
theorem order_canon (f : Token → Nat) {xs ys : List Token} (h : xs.Perm ys) :
    order_using_token_ordering f xs = order_using_token_ordering f ys :=
  List.eq_of_perm_of_sorted
    ((List.perm_insertionSort (tokOrd f) xs).trans
      (h.trans (List.perm_insertionSort (tokOrd f) ys).symm))
    (List.sorted_insertionSort (tokOrd f) xs)
    (List.sorted_insertionSort (tokOrd f) ys)

/-- The ordered sequence is a permutation of the input token set. -/
theorem order_perm (f : Token → Nat) (xs : List Token) :
    (order_using_token_ordering f xs).Perm xs :=
  List.perm_insertionSort (tokOrd f) xs

/-! ### Claims about `filter_pair` -/

/-- C1: `filter_pair` returns `true` (drop) whenever either input is
empty or null; otherwise it returns `true` iff the first
`l_prefix_length` tokens of the left ordered token sequence and the
first `r_prefix_length` tokens of the right ordered token sequence share
no token, and `false` (keep) otherwise. -/
theorem filter_pair_drop_iff_no_shared_prefix_token (pf : PrefixFilter)
    (lstring rstring : Cell) :
    ((pyTruthy lstring = false ∨ pyTruthy rstring = false) →
      pf.filter_pair lstring rstring = true) ∧
    (pyTruthy lstring = true → pyTruthy rstring = true →
      (pf.filter_pair lstring rstring = true ↔
        ∀ t ∈ spec_left_prefix_tokens pf (pyStr lstring) (pyStr rstring),
          t ∉ spec_right_prefix_tokens pf (pyStr lstring) (pyStr rstring))) := by
  constructor
  · intro h
    unfold PrefixFilter.filter_pair
    rcases h with h | h <;> simp [h]
  · intro hl hr
    unfold PrefixFilter.filter_pair
    simp only [hl, hr, Bool.not_true, Bool.or_self, Bool.false_or, if_false]
    simp [spec_left_prefix_tokens, spec_right_prefix_tokens, List.isEmpty_iff,
      List.filter_eq_nil_iff]

/-- Witness for C1 at concrete inputs: an empty left side is dropped,
and a pair with no shared token (hence no shared prefix token) is
dropped while a pair sharing a rare token is kept. -/
theorem filter_pair_drop_iff_witness :
    pfAll.filter_pair (some "") (some "abc") = true ∧
    pfAll.filter_pair (some "a b") (some "c d") = true := by
  refine ⟨?_, ?_⟩
  · exact (filter_pair_drop_iff_no_shared_prefix_token pfAll (some "") (some "abc")).1
      (Or.inl (by decide))
  · exact ((filter_pair_drop_iff_no_shared_prefix_token pfAll (some "a b")
      (some "c d")).2 (by decide) (by decide)).mpr (by decide)

/-- C10: for a non-empty string with a non-empty deduplicated token set,
`filter_pair s s` keeps the pair, provided the prefix length calculator
honours its `[1, n]` contract: both sides order to the same sequence and
the two non-empty prefixes share their first token. -/
theorem filter_pair_self_kept (pf : PrefixFilter) (s : String) (hs : s ≠ "")
    (hne : (pf.tokenizer s).dedup ≠ [])
    (hpl : ∀ n, 1 ≤ n → 1 ≤ pf.get_prefix_length n ∧ pf.get_prefix_length n ≤ n) :
    pf.filter_pair (some s) (some s) = false := by
  have hsE : s.isEmpty = false := by
    rw [Bool.eq_false_iff]
    intro he
    exact hs ((String.isEmpty_iff s).mp he)
  unfold PrefixFilter.filter_pair
  simp only [pyTruthy, pyStr, hsE, Bool.not_false, Bool.or_self, if_neg,
    Bool.not_eq_true, Bool.false_eq_true, not_false_eq_true]
  set T := (pf.tokenizer s).dedup with hT
  set f := doc_freq [T, T] with hf
  have holne : order_using_token_ordering f T ≠ [] := by
    intro h
    have hperm : T.Perm ([] : List Token) := (order_perm f T).symm.trans (by rw [h])
    exact hne hperm.eq_nil
  obtain ⟨t, ts, hol⟩ := List.exists_cons_of_ne_nil holne
  have h1 : 1 ≤ (order_using_token_ordering f T).length := by
    rw [hol]; exact Nat.succ_le_succ (Nat.zero_le _)
  obtain ⟨hp1, _⟩ := hpl _ h1
  obtain ⟨q, hq⟩ : ∃ q, pf.get_prefix_length (order_using_token_ordering f T).length
      = q + 1 := by
    cases hc : pf.get_prefix_length (order_using_token_ordering f T).length with
    | zero => rw [hc] at hp1; exact absurd hp1 (by omega)
    | succ q => exact ⟨q, rfl⟩
  rw [hol] at hq
  simp only [hol, hq, List.take_succ_cons, List.filter]
  simp

/-- Witness for C10 at a concrete input. -/
theorem filter_pair_self_kept_witness :
    pfAll.filter_pair (some "a b") (some "a b") = false :=
  filter_pair_self_kept pfAll "a b" (by decide) (by decide)
    (fun n h => ⟨h, Nat.le_refl n⟩)

/-! ### Claims about `filter_tables` -/

/-- C2: `filter_tables` is deterministic — two calls with identical
filter object, tables, key/filter/output attribute arguments produce
identical candidate tables (same rows, same identifiers, same order).
The embedding is a pure function of exactly these arguments, so equal
inputs give equal output tables. -/
theorem filter_tables_deterministic (pf pf' : PrefixFilter)
    (ltable ltable' rtable rtable' : Table)
    (lka lka' rka rka' lfa lfa' rfa rfa' : String)
    (loa loa' roa roa' : Option (List String)) (lpx lpx' rpx rpx' : String)
    (h1 : pf = pf') (h2 : ltable = ltable') (h3 : rtable = rtable')
    (h4 : lka = lka') (h5 : rka = rka') (h6 : lfa = lfa') (h7 : rfa = rfa')
    (h8 : loa = loa') (h9 : roa = roa') (h10 : lpx = lpx') (h11 : rpx = rpx') :
    pf.filter_tables ltable rtable lka rka lfa rfa loa roa lpx rpx =
      pf'.filter_tables ltable' rtable' lka' rka' lfa' rfa' loa' roa' lpx' rpx' := by
  subst h1; subst h2; subst h3; subst h4; subst h5; subst h6; subst h7
  subst h8; subst h9; subst h10; subst h11
  rfl

/-- Witness for C2 at a concrete input. -/
theorem filter_tables_deterministic_witness :
    pfAll.filter_tables ⟨["id", "a"], [[some "1", some "mouse"]]⟩
        ⟨["id", "a"], [[some "7", some "mouse pad"]]⟩
        "id" "id" "a" "a" none none "l_" "r_" =
      pfAll.filter_tables ⟨["id", "a"], [[some "1", some "mouse"]]⟩
        ⟨["id", "a"], [[some "7", some "mouse pad"]]⟩
        "id" "id" "a" "a" none none "l_" "r_" :=
  filter_tables_deterministic pfAll pfAll _ _ _ _ _ _ _ _ _ _ _ _ _ _ _ _ _ _ _ _
    rfl rfl rfl rfl rfl rfl rfl rfl rfl rfl rfl

theorem colIdx_ok_mem {cols : List String} {a : String} {i : Nat}
    (h : colIdx cols a = Except.ok i) : a ∈ cols := by
  induction cols generalizing i with
  | nil => exact absurd h (by simp [colIdx])
  | cons c rest ih =>
    by_cases hc : c = a
    · exact hc ▸ List.mem_cons_self c rest
    · simp only [colIdx, if_neg hc] at h
      cases hrec : colIdx rest a with
      | ok j => exact List.mem_cons_of_mem c (ih hrec)
      | error e => rw [hrec] at h; exact absurd h (by simp)

theorem colIdxList_ok_mem {cols attrs : List String} {is : List Nat}
    (h : colIdxList cols attrs = Except.ok is) : ∀ a ∈ attrs, a ∈ cols := by
  induction attrs generalizing is with
  | nil => intro a ha; exact absurd ha (by simp)
  | cons b rest ih =>
    intro a ha
    simp only [colIdxList, bind, Except.bind] at h
    cases hb : colIdx cols b with
    | error e => rw [hb] at h; exact absurd h (by simp)
    | ok i =>
      rw [hb] at h
      cases hrest : colIdxList cols rest with
      | error e => rw [hrest] at h; exact absurd h (by simp)
      | ok js =>
        rcases List.mem_cons.mp ha with ha | ha
        · exact ha ▸ colIdx_ok_mem hb
        · exact ih hrest a ha

theorem resolveCols_ok_mem {lheader rheader : List String}
    {lka rka lfa rfa : String} {loa roa : Option (List String)}
    {c : ResolvedCols}
    (h : resolveCols lheader rheader lka rka lfa rfa loa roa = Except.ok c) :
    lka ∈ lheader ∧ lfa ∈ lheader ∧ (∀ a ∈ loa.getD [], a ∈ lheader) ∧
    rka ∈ rheader ∧ rfa ∈ rheader ∧ (∀ a ∈ roa.getD [], a ∈ rheader) := by
  simp only [resolveCols, bind, Except.bind] at h
  cases h1 : colIdx lheader lka with
  | error e => rw [h1] at h; exact absurd h (by simp)
  | ok lk =>
  rw [h1] at h
  cases h2 : colIdx lheader lfa with
  | error e => rw [h2] at h; exact absurd h (by simp)
  | ok lf =>
  rw [h2] at h
  cases h3 : colIdxList lheader (loa.getD []) with
  | error e => rw [h3] at h; exact absurd h (by simp)
  | ok lo =>
  rw [h3] at h
  cases h4 : colIdx rheader rka with
  | error e => rw [h4] at h; exact absurd h (by simp)
  | ok rk =>
  rw [h4] at h
  cases h5 : colIdx rheader rfa with
  | error e => rw [h5] at h; exact absurd h (by simp)
  | ok rf =>
  rw [h5] at h
  cases h6 : colIdxList rheader (roa.getD []) with
  | error e => rw [h6] at h; exact absurd h (by simp)
  | ok ro =>
  exact ⟨colIdx_ok_mem h1, colIdx_ok_mem h2, colIdxList_ok_mem h3,
    colIdx_ok_mem h4, colIdx_ok_mem h5, colIdxList_ok_mem h6⟩

/-- C4: if any configured key, filter, or requested output attribute
name is absent from its table's columns, `filter_tables` fails with the
`UnknownField` error before any work is done: the same error is produced
whatever the rows of the two tables are, and no output table (hence no
dictionary, ordering, index or output row) is produced. -/
theorem filter_tables_unknown_field_fails_fast (pf : PrefixFilter)
    (lheader rheader : List String) (lka rka lfa rfa : String)
    (loa roa : Option (List String)) (lpx rpx : String)
    (habs : lka ∉ lheader ∨ lfa ∉ lheader ∨ (∃ a ∈ loa.getD [], a ∉ lheader) ∨
      rka ∉ rheader ∨ rfa ∉ rheader ∨ (∃ a ∈ roa.getD [], a ∉ rheader)) :
    ∃ nm, ∀ lrows rrows : List Row,
      pf.filter_tables ⟨lheader, lrows⟩ ⟨rheader, rrows⟩ lka rka lfa rfa
        loa roa lpx rpx = Except.error (FilterError.unknownField nm) := by
  cases hres : resolveCols lheader rheader lka rka lfa rfa loa roa with
  | ok c =>
    obtain ⟨m1, m2, m3, m4, m5, m6⟩ := resolveCols_ok_mem hres
    rcases habs with h | h | ⟨a, ha, h⟩ | h | h | ⟨a, ha, h⟩
    · exact absurd m1 h
    · exact absurd m2 h
    · exact absurd (m3 a ha) h
    · exact absurd m4 h
    · exact absurd m5 h
    · exact absurd (m6 a ha) h
  | error e =>
    cases e with
    | unknownField nm =>
      refine ⟨nm, fun lrows rrows => ?_⟩
      unfold PrefixFilter.filter_tables
      rw [hres]

/-- Witness for C4 at a concrete input: an absent filter attribute name
makes the call fail regardless of the rows. -/
theorem filter_tables_unknown_field_witness :
    ∃ nm, ∀ lrows rrows : List Row,
      pfAll.filter_tables ⟨["id", "a"], lrows⟩ ⟨["id", "a"], rrows⟩
        "id" "id" "bogus" "a" none none "l_" "r_" =
        Except.error (FilterError.unknownField nm) :=
  filter_tables_unknown_field_fails_fast pfAll ["id", "a"] ["id", "a"]
    "id" "id" "bogus" "a" none none "l_" "r_" (Or.inr (Or.inl (by decide)))

/-! ### Dictionary lemmas -/

theorem dictInsert_keys (d : List (Cell × Row)) (k : Cell) (v : Row) :
    (dictInsert d k v).map Prod.fst =
      if k ∈ d.map Prod.fst then d.map Prod.fst else d.map Prod.fst ++ [k] := by
  induction d with
  | nil => simp [dictInsert]
  | cons e rest ih =>
    by_cases he : e.1 = k
    · simp [dictInsert, he]
    · rw [dictInsert, if_neg he]
      simp only [List.map_cons, ih]
      by_cases hk : k ∈ rest.map Prod.fst
      · have hmem : k ∈ e.1 :: rest.map Prod.fst := List.mem_cons_of_mem _ hk
        simp [hk, hmem]
      · have hmem : ¬ k ∈ e.1 :: rest.map Prod.fst := by
          intro h
          rcases List.mem_cons.mp h with h | h
          · exact he h.symm
          · exact hk h
        simp [hk, hmem]

theorem dictInsert_keys_nodup {d : List (Cell × Row)} {k : Cell} {v : Row}
    (h : (d.map Prod.fst).Nodup) : ((dictInsert d k v).map Prod.fst).Nodup := by
  rw [dictInsert_keys]
  by_cases hk : k ∈ d.map Prod.fst
  · simpa [hk] using h
  · simp only [hk, if_false]
    simp [List.nodup_append, h, hk]

theorem dictInsert_mem {d : List (Cell × Row)} {k : Cell} {v : Row} :
    ∀ e ∈ dictInsert d k v, e ∈ d ∨ e = (k, v) := by
  induction d with
  | nil =>
    intro e he
    simp [dictInsert] at he
    exact Or.inr he
  | cons f rest ih =>
    intro e he
    by_cases hf : f.1 = k
    · rw [dictInsert, if_pos hf] at he
      rcases List.mem_cons.mp he with h | h
      · exact Or.inr h
      · exact Or.inl (List.mem_cons_of_mem _ h)
    · rw [dictInsert, if_neg hf] at he
      rcases List.mem_cons.mp he with h | h
      · exact Or.inl (h ▸ List.mem_cons_self _ _)
      · rcases ih e h with h' | h'
        · exact Or.inl (List.mem_cons_of_mem _ h')
        · exact Or.inr h'

theorem buildDict_keys_nodup (rows : List Row) (kidx : Nat) :
    ((buildDict rows kidx).map Prod.fst).Nodup := by
  suffices h : ∀ (rs : List Row) (d : List (Cell × Row)), (d.map Prod.fst).Nodup →
      (((rs.foldl (fun d row => dictInsert d (cellAt row kidx) row) d)).map
        Prod.fst).Nodup by
    exact h rows [] (by simp)
  intro rs
  induction rs with
  | nil => intro d hd; simpa using hd
  | cons r rest ih =>
    intro d hd
    exact ih _ (dictInsert_keys_nodup hd)

theorem buildDict_entry_key (rows : List Row) (kidx : Nat) :
    ∀ e ∈ buildDict rows kidx, e.1 = cellAt e.2 kidx := by
  suffices h : ∀ (rs : List Row) (d : List (Cell × Row)),
      (∀ e ∈ d, e.1 = cellAt e.2 kidx) →
      ∀ e ∈ rs.foldl (fun d row => dictInsert d (cellAt row kidx) row) d,
        e.1 = cellAt e.2 kidx by
    exact h rows [] (by simp)
  intro rs
  induction rs with
  | nil => intro d hd; simpa using hd
  | cons r rest ih =>
    intro d hd
    refine ih _ (fun e he => ?_)
    rcases dictInsert_mem e he with h | h
    · exact hd e h
    · rw [h]

theorem dictInsert_of_not_mem {d : List (Cell × Row)} {k : Cell} {v : Row}
    (h : k ∉ d.map Prod.fst) : dictInsert d k v = d ++ [(k, v)] := by
  induction d with
  | nil => simp [dictInsert]
  | cons e rest ih =>
    have he : ¬ e.1 = k := by
      intro hk
      exact h (hk ▸ List.mem_cons_self _ _)
    rw [dictInsert, if_neg he, List.cons_append]
    exact congrArg (e :: ·) (ih (fun hk => h (List.mem_cons_of_mem _ hk)))

theorem buildDict_of_nodup (rows : List Row) (kidx : Nat)
    (h : (rows.map (fun r => cellAt r kidx)).Nodup) :
    buildDict rows kidx = rows.map (fun r => (cellAt r kidx, r)) := by
  suffices hgen : ∀ (rs : List Row) (d : List (Cell × Row)),
      (d.map Prod.fst ++ rs.map (fun r => cellAt r kidx)).Nodup →
      rs.foldl (fun d row => dictInsert d (cellAt row kidx) row) d =
        d ++ rs.map (fun r => (cellAt r kidx, r)) by
    simpa using hgen rows [] (by simpa using h)
  intro rs
  induction rs with
  | nil => intro d _; simp
  | cons r rest ih =>
    intro d hd
    have hnotmem : cellAt r kidx ∉ d.map Prod.fst := by
      intro hk
      have := (List.nodup_append.mp hd).2.2
      exact this hk (List.mem_cons_self _ _)
    have hstep : dictInsert d (cellAt r kidx) r = d ++ [(cellAt r kidx, r)] :=
      dictInsert_of_not_mem hnotmem
    rw [List.foldl_cons, hstep, ih]
    · simp
    · have heq : (d ++ [(cellAt r kidx, r)]).map Prod.fst ++
          rest.map (fun r => cellAt r kidx) =
          d.map Prod.fst ++ (cellAt r kidx :: rest.map (fun r => cellAt r kidx)) := by
        simp
      rw [heq]
      simpa using hd

theorem dictGet_dictInsert (d : List (Cell × Row)) (k : Cell) (v : Row) (key : Cell) :
    dictGet (dictInsert d k v) key = if key = k then v else dictGet d key := by
  induction d with
  | nil =>
    by_cases hk : key = k
    · simp [dictInsert, dictGet, List.find?, hk]
    · have h1 : ¬ k = key := fun h => hk h.symm
      simp [dictInsert, dictGet, List.find?, hk, h1]
  | cons e rest ih =>
    by_cases he : e.1 = k
    · by_cases hk : key = k
      · simp [dictInsert, dictGet, List.find?, he, hk]
      · have h1 : ¬ k = key := fun h => hk h.symm
        have h2 : ¬ e.1 = key := fun h => h1 (he.symm.trans h)
        simp only [dictInsert, if_pos he, if_neg hk]
        simp [dictGet, List.find?, h1, h2]
    · simp only [dictInsert, if_neg he]
      by_cases hek : e.1 = key
      · have hk : ¬ key = k := fun h => he (h ▸ hek)
        simp [dictGet, List.find?, hek, hk]
      · simp only [dictGet, List.find?] at ih ⊢
        rw [show (decide (e.1 = key)) = false from decide_eq_false hek]
        exact ih

theorem buildDict_concat (rows : List Row) (r : Row) (kidx : Nat) :
    buildDict (rows ++ [r]) kidx =
      dictInsert (buildDict rows kidx) (cellAt r kidx) r := by
  simp [buildDict, List.foldl_append]

theorem buildDict_lastRow (rows : List Row) (kidx : Nat) (key : Cell) :
    dictGet (buildDict rows kidx) key = (lastRowWith rows kidx key).getD [] := by
  induction rows using List.reverseRecOn with
  | nil => rfl
  | append_singleton init r ih =>
    rw [buildDict_concat, dictGet_dictInsert]
    have hrev : (init ++ [r]).reverse = r :: init.reverse := by
      rw [List.reverse_append]
      rfl
    by_cases h : cellAt r kidx = key
    · have h' : key = cellAt r kidx := h.symm
      rw [if_pos h']
      unfold lastRowWith
      rw [hrev, List.find?_cons_of_pos _ (by simp [h])]
      rfl
    · have h' : ¬ key = cellAt r kidx := fun hh => h hh.symm
      rw [if_neg h']
      unfold lastRowWith at ih ⊢
      rw [hrev, List.find?_cons_of_neg _ (by simp [h])]
      exact ih

/-- Uniqueness of entries in an association list with distinct keys. -/
theorem assoc_nodup_eq {d : List (Cell × Row)} (h : (d.map Prod.fst).Nodup)
    {e e' : Cell × Row} (he : e ∈ d) (he' : e' ∈ d) (hk : e.1 = e'.1) : e = e' := by
  induction d with
  | nil => exact absurd he (by simp)
  | cons f rest ih =>
    have hf : f.1 ∉ rest.map Prod.fst := (List.nodup_cons.mp h).1
    rcases List.mem_cons.mp he with h1 | h1 <;>
      rcases List.mem_cons.mp he' with h2 | h2
    · exact h1.trans h2.symm
    · exfalso
      apply hf
      rw [h1] at hk
      rw [hk]
      exact List.mem_map_of_mem Prod.fst h2
    · exfalso
      apply hf
      rw [h2] at hk
      rw [← hk]
      exact List.mem_map_of_mem Prod.fst h1
    · exact ih (List.nodup_cons.mp h).2 h1 h2

/-! ### Emission-loop lemmas -/

theorem range'_join (s m n : Nat) :
    List.range' s m ++ List.range' (s + m) n = List.range' s (m + n) := by
  have h := List.range'_append s m n 1
  rw [Nat.one_mul] at h
  rw [Nat.add_comm m n]
  exact h

theorem emitCands_length (ldict : List (Cell × Row)) (c : ResolvedCols)
    (ho : Bool) (rk : Cell) (rr : Row) :
    ∀ (cands : List Cell) (cid : Nat),
      (emitCands ldict c ho rk rr cands cid).length = cands.length := by
  intro cands
  induction cands with
  | nil => intro cid; rfl
  | cons cd rest ih =>
    intro cid
    simp only [emitCands, List.length_cons, ih]

theorem emitCands_ids (ldict : List (Cell × Row)) (c : ResolvedCols)
    (ho : Bool) (rk : Cell) (rr : Row) :
    ∀ (cands : List Cell) (cid : Nat),
      (emitCands ldict c ho rk rr cands cid).map OutRow._id =
        List.range' cid cands.length := by
  intro cands
  induction cands with
  | nil => intro cid; rfl
  | cons cd rest ih =>
    intro cid
    rw [List.length_cons, List.range'_succ cid rest.length 1]
    cases ho <;> simp only [emitCands, List.map_cons, ih] <;> rfl

theorem emitCands_pairs (ldict : List (Cell × Row)) (c : ResolvedCols)
    (ho : Bool) (rk : Cell) (rr : Row) :
    ∀ (cands : List Cell) (cid : Nat),
      (emitCands ldict c ho rk rr cands cid).map pairOf =
        cands.map (fun cd => (cd, rk)) := by
  intro cands
  induction cands with
  | nil => intro cid; rfl
  | cons cd rest ih =>
    intro cid
    cases ho <;> simp only [emitCands, List.map_cons, ih] <;> rfl

theorem filterLoop_ids (pf : PrefixFilter) (f : Token → Nat)
    (idx : List (Token × Cell)) (ld : List (Cell × Row)) (c : ResolvedCols)
    (ho : Bool) :
    ∀ (rs : List Row) (cid : Nat),
      (filterLoop pf f idx ld c ho rs cid).map OutRow._id =
        List.range' cid (filterLoop pf f idx ld c ho rs cid).length := by
  intro rs
  induction rs with
  | nil => intro cid; rfl
  | cons r rest ih =>
    intro cid
    cases hs : (pyStr (cellAt r c.r_filter_idx)).isEmpty with
    | true =>
      simp only [filterLoop, hs, eq_self_iff_true, if_true]
      exact ih cid
    | false =>
      simp only [filterLoop, hs, Bool.false_eq_true, if_false, List.map_append,
        List.length_append]
      rw [emitCands_ids, emitCands_length, ih]
      exact range'_join cid _ _

theorem filterLoop_pairs (pf : PrefixFilter) (f : Token → Nat)
    (idx : List (Token × Cell)) (ld : List (Cell × Row)) (c : ResolvedCols)
    (ho : Bool) :
    ∀ (rs : List Row) (cid : Nat),
      (filterLoop pf f idx ld c ho rs cid).map pairOf =
        rs.flatMap (right_block pf f idx c) := by
  intro rs
  induction rs with
  | nil => intro cid; rfl
  | cons r rest ih =>
    intro cid
    cases hs : (pyStr (cellAt r c.r_filter_idx)).isEmpty with
    | true =>
      simp only [filterLoop, right_block, hs, eq_self_iff_true, if_true,
        List.flatMap_cons, List.nil_append]
      exact ih cid
    | false =>
      simp only [filterLoop, right_block, hs, Bool.false_eq_true, if_false,
        List.map_append, List.flatMap_cons]
      rw [emitCands_pairs, ih]

/-- Extracting the row list of a successful `filter_tables` call. -/
theorem filter_tables_ok_rows (pf : PrefixFilter) (ltable rtable : Table)
    (lka rka lfa rfa : String) (loa roa : Option (List String)) (lpx rpx : String)
    {c : ResolvedCols} {T : OutTable}
    (hres : resolveCols ltable.header rtable.header lka rka lfa rfa loa roa =
      Except.ok c)
    (hok : pf.filter_tables ltable rtable lka rka lfa rfa loa roa lpx rpx =
      Except.ok T) :
    T.rows = filterLoop pf
      (gen_token_ordering_for_tables pf.tokenizer
        ((buildDict ltable.rows c.l_key_idx).map Prod.snd)
        ((buildDict rtable.rows c.r_key_idx).map Prod.snd)
        c.l_filter_idx c.r_filter_idx)
      (prefix_index_build pf
        (gen_token_ordering_for_tables pf.tokenizer
          ((buildDict ltable.rows c.l_key_idx).map Prod.snd)
          ((buildDict rtable.rows c.r_key_idx).map Prod.snd)
          c.l_filter_idx c.r_filter_idx)
        (buildDict ltable.rows c.l_key_idx) c.l_filter_idx)
      (buildDict ltable.rows c.l_key_idx) c (loa.isSome || roa.isSome)
      ((buildDict rtable.rows c.r_key_idx).map Prod.snd) 1 := by
  unfold PrefixFilter.filter_tables at hok
  rw [hres] at hok
  simp only [Except.ok.injEq] at hok
  rw [← hok]

/-! ### Claim C5: candidate identifiers -/

/-- C5: in every output table of `filter_tables`, the candidate
identifiers are exactly `1, 2, …` in emission order — they start at 1,
increment by one per emitted row, are never reused or reset, and the
`i`-th emitted row carries identifier `i`. -/
theorem filter_tables_ids_consecutive (pf : PrefixFilter) (ltable rtable : Table)
    (lka rka lfa rfa : String) (loa roa : Option (List String)) (lpx rpx : String)
    (T : OutTable)
    (hok : pf.filter_tables ltable rtable lka rka lfa rfa loa roa lpx rpx =
      Except.ok T) :
    T.rows.map OutRow._id = List.range' 1 T.rows.length := by
  cases hres : resolveCols ltable.header rtable.header lka rka lfa rfa loa roa with
  | error e =>
    unfold PrefixFilter.filter_tables at hok
    rw [hres] at hok
    exact absurd hok (by simp)
  | ok c =>
    rw [filter_tables_ok_rows pf ltable rtable lka rka lfa rfa loa roa lpx rpx
      hres hok]
    exact filterLoop_ids _ _ _ _ _ _ _ 1

/-- Witness for C5 at a concrete input. -/
theorem filter_tables_ids_consecutive_witness :
    (⟨["_id", "id", "id"], [⟨1, some "1", some "7", [], []⟩]⟩ : OutTable).rows.map
        OutRow._id =
      List.range' 1 (⟨["_id", "id", "id"],
        [⟨1, some "1", some "7", [], []⟩]⟩ : OutTable).rows.length :=
  filter_tables_ids_consecutive pfAll ⟨["id", "a"], [[some "1", some "mouse"]]⟩
    ⟨["id", "a"], [[some "7", some "mouse pad"]]⟩ "id" "id" "a" "a" none none
    "l_" "r_" ⟨["_id", "id", "id"], [⟨1, some "1", some "7", [], []⟩]⟩ (by decide)

/-! ### Claim C6: each pair appears at most once -/

theorem probe_mem_iff {idx : List (Token × Cell)} {t : Token} {cd : Cell} :
    cd ∈ probe idx t ↔ (t, cd) ∈ idx := by
  constructor
  · intro h
    obtain ⟨e, he, hcd⟩ := List.mem_map.mp h
    obtain ⟨hidx, ht⟩ := List.mem_filter.mp he
    have ht' : e.1 = t := of_decide_eq_true ht
    have : e = (t, cd) := Prod.ext ht' hcd
    exact this ▸ hidx
  · intro h
    exact List.mem_map.mpr ⟨(t, cd), List.mem_filter.mpr ⟨h, by simp⟩, rfl⟩

theorem candidatesOf_nodup (pf : PrefixFilter) (f : Token → Nat)
    (idx : List (Token × Cell)) (fi : Nat) (r : Row) :
    (candidatesOf pf f idx fi r).Nodup :=
  List.nodup_dedup _

theorem right_block_nodup (pf : PrefixFilter) (f : Token → Nat)
    (idx : List (Token × Cell)) (c : ResolvedCols) (r : Row) :
    (right_block pf f idx c r).Nodup := by
  unfold right_block
  split
  · exact List.nodup_nil
  · exact (candidatesOf_nodup pf f idx c.r_filter_idx r).map
      (fun cd cd' h => congrArg Prod.fst h)

theorem right_block_snd {pf : PrefixFilter} {f : Token → Nat}
    {idx : List (Token × Cell)} {c : ResolvedCols} {r : Row} {p : Cell × Cell}
    (hp : p ∈ right_block pf f idx c r) : p.2 = cellAt r c.r_key_idx := by
  unfold right_block at hp
  split at hp
  · exact absurd hp (by simp)
  · obtain ⟨cd, _, hcd⟩ := List.mem_map.mp hp
    rw [← hcd]

theorem flat_right_blocks_nodup (pf : PrefixFilter) (f : Token → Nat)
    (idx : List (Token × Cell)) (c : ResolvedCols) :
    ∀ rs : List Row, ((rs.map (fun r => cellAt r c.r_key_idx)).Nodup) →
      (rs.flatMap (right_block pf f idx c)).Nodup := by
  intro rs
  induction rs with
  | nil => intro _; simp
  | cons r rest ih =>
    intro h
    obtain ⟨hhead, htail⟩ := List.nodup_cons.mp h
    rw [List.flatMap_cons]
    refine List.Nodup.append (right_block_nodup pf f idx c r) (ih htail)
      (List.disjoint_left.mpr fun p hp hp' => ?_)
    obtain ⟨r', hr', hpr'⟩ := List.mem_flatMap.mp hp'
    apply hhead
    show cellAt r c.r_key_idx ∈ rest.map fun r => cellAt r c.r_key_idx
    rw [← right_block_snd hp, right_block_snd hpr']
    exact List.mem_map_of_mem _ hr'

theorem dictValues_keys (rows : List Row) (kidx : Nat) :
    ((buildDict rows kidx).map Prod.snd).map (fun r => cellAt r kidx) =
      (buildDict rows kidx).map Prod.fst := by
  rw [List.map_map]
  exact List.map_congr_left (fun e he => (buildDict_entry_key rows kidx e he).symm)

/-- C6: each (left key, right key) pair appears in at most one output
row of `filter_tables`, even when several shared prefix tokens cause the
same left record to be returned by multiple probes for the same right
record. -/
theorem filter_tables_pairs_nodup (pf : PrefixFilter) (ltable rtable : Table)
    (lka rka lfa rfa : String) (loa roa : Option (List String)) (lpx rpx : String)
    (T : OutTable)
    (hok : pf.filter_tables ltable rtable lka rka lfa rfa loa roa lpx rpx =
      Except.ok T) :
    (T.rows.map pairOf).Nodup := by
  cases hres : resolveCols ltable.header rtable.header lka rka lfa rfa loa roa with
  | error e =>
    unfold PrefixFilter.filter_tables at hok
    rw [hres] at hok
    exact absurd hok (by simp)
  | ok c =>
    rw [filter_tables_ok_rows pf ltable rtable lka rka lfa rfa loa roa lpx rpx
      hres hok]
    rw [filterLoop_pairs]
    refine flat_right_blocks_nodup _ _ _ _ _ ?_
    rw [dictValues_keys]
    exact buildDict_keys_nodup rtable.rows c.r_key_idx

/-- Witness for C6 at a concrete input where the left and right records
share two tokens (two probe hits collapse into one output row). -/
theorem filter_tables_pairs_nodup_witness :
    ((⟨["_id", "id", "id"], [⟨1, some "1", some "7", [], []⟩]⟩ : OutTable).rows.map
      pairOf).Nodup :=
  filter_tables_pairs_nodup pfAll ⟨["id", "a"], [[some "1", some "x y"]]⟩
    ⟨["id", "a"], [[some "7", some "x y"]]⟩ "id" "id" "a" "a" none none
    "l_" "r_" ⟨["_id", "id", "id"], [⟨1, some "1", some "7", [], []⟩]⟩ (by decide)

/-! ### Claim C7: right-row order only permutes the candidate pairs -/

/-- The candidate pairs of a successful `filter_tables` call are the
concatenation of each right dictionary row's block. -/
theorem filter_tables_out_pairs (pf : PrefixFilter) (ltable rtable : Table)
    (lka rka lfa rfa : String) (loa roa : Option (List String)) (lpx rpx : String)
    {c : ResolvedCols}
    (hres : resolveCols ltable.header rtable.header lka rka lfa rfa loa roa =
      Except.ok c) :
    out_pairs (pf.filter_tables ltable rtable lka rka lfa rfa loa roa lpx rpx) =
      ((buildDict rtable.rows c.r_key_idx).map Prod.snd).flatMap
        (right_block pf
          (gen_token_ordering_for_tables pf.tokenizer
            ((buildDict ltable.rows c.l_key_idx).map Prod.snd)
            ((buildDict rtable.rows c.r_key_idx).map Prod.snd)
            c.l_filter_idx c.r_filter_idx)
          (prefix_index_build pf
            (gen_token_ordering_for_tables pf.tokenizer
              ((buildDict ltable.rows c.l_key_idx).map Prod.snd)
              ((buildDict rtable.rows c.r_key_idx).map Prod.snd)
              c.l_filter_idx c.r_filter_idx)
            (buildDict ltable.rows c.l_key_idx) c.l_filter_idx)
          c) := by
  unfold PrefixFilter.filter_tables
  rw [hres]
  unfold out_pairs
  exact filterLoop_pairs _ _ _ _ _ _ _ 1

theorem gen_token_ordering_right_perm (tok : String → List Token)
    (lrows : List Row) {r₁ r₂ : List Row} (h : r₁.Perm r₂) (lfi rfi : Nat) :
    gen_token_ordering_for_tables tok lrows r₁ lfi rfi =
      gen_token_ordering_for_tables tok lrows r₂ lfi rfi := by
  funext t
  unfold gen_token_ordering_for_tables doc_freq
  exact List.Perm.countP_eq _ (List.Perm.append_left _ (h.map _))

theorem buildDict_values_of_nodup (rows : List Row) (kidx : Nat)
    (h : (rows.map (fun r => cellAt r kidx)).Nodup) :
    (buildDict rows kidx).map Prod.snd = rows := by
  rw [buildDict_of_nodup rows kidx h, List.map_map]
  exact List.map_id rows

/-- C7: permuting the rows of the right table (left table unchanged,
right keys unique per the spec's data-model contract) does not change
the multiset — hence, with C6, the set — of (left key, right key)
candidate pairs produced by `filter_tables`; only the association of
identifiers to rows follows the new iteration order. -/
theorem filter_tables_right_perm (pf : PrefixFilter) (ltable : Table)
    (rheader : List String) (rrows₁ rrows₂ : List Row)
    (lka rka lfa rfa : String) (loa roa : Option (List String)) (lpx rpx : String)
    (c : ResolvedCols)
    (hres : resolveCols ltable.header rheader lka rka lfa rfa loa roa =
      Except.ok c)
    (hnodup : (rrows₁.map (fun r => cellAt r c.r_key_idx)).Nodup)
    (hperm : rrows₁.Perm rrows₂) :
    (out_pairs (pf.filter_tables ltable ⟨rheader, rrows₁⟩ lka rka lfa rfa
        loa roa lpx rpx)).Perm
      (out_pairs (pf.filter_tables ltable ⟨rheader, rrows₂⟩ lka rka lfa rfa
        loa roa lpx rpx)) := by
  have hnodup₂ : (rrows₂.map (fun r => cellAt r c.r_key_idx)).Nodup :=
    ((hperm.map _).nodup_iff).mp hnodup
  have hv₁ : (buildDict rrows₁ c.r_key_idx).map Prod.snd = rrows₁ :=
    buildDict_values_of_nodup rrows₁ c.r_key_idx hnodup
  have hv₂ : (buildDict rrows₂ c.r_key_idx).map Prod.snd = rrows₂ :=
    buildDict_values_of_nodup rrows₂ c.r_key_idx hnodup₂
  rw [filter_tables_out_pairs pf ltable ⟨rheader, rrows₁⟩ lka rka lfa rfa loa roa
    lpx rpx hres]
  rw [filter_tables_out_pairs pf ltable ⟨rheader, rrows₂⟩ lka rka lfa rfa loa roa
    lpx rpx hres]
  show ((buildDict rrows₁ c.r_key_idx).map Prod.snd).flatMap _ |>.Perm
    (((buildDict rrows₂ c.r_key_idx).map Prod.snd).flatMap _)
  rw [hv₁, hv₂]
  rw [gen_token_ordering_right_perm pf.tokenizer
    ((buildDict ltable.rows c.l_key_idx).map Prod.snd) hperm
    c.l_filter_idx c.r_filter_idx]
  exact hperm.flatMap_right _

/-- Witness for C7 at a concrete input: swapping the two right rows
permutes the produced pair list. -/
theorem filter_tables_right_perm_witness :
    (out_pairs (pfAll.filter_tables ⟨["id", "a"], [[some "1", some "x"]]⟩
        ⟨["id", "a"], [[some "7", some "x"], [some "8", some "x"]]⟩
        "id" "id" "a" "a" none none "l_" "r_")).Perm
      (out_pairs (pfAll.filter_tables ⟨["id", "a"], [[some "1", some "x"]]⟩
        ⟨["id", "a"], [[some "8", some "x"], [some "7", some "x"]]⟩
        "id" "id" "a" "a" none none "l_" "r_")) :=
  filter_tables_right_perm pfAll ⟨["id", "a"], [[some "1", some "x"]]⟩
    ["id", "a"] [[some "7", some "x"], [some "8", some "x"]]
    [[some "8", some "x"], [some "7", some "x"]]
    "id" "id" "a" "a" none none "l_" "r_" ⟨0, 1, [], 0, 1, []⟩ (by decide)
    (by decide) (List.Perm.swap _ _ _)

/-! ### Claim C8: a stricter threshold never adds candidates -/

theorem take_subset_take {α : Type} (l : List α) {m n : Nat} (h : m ≤ n) :
    l.take m ⊆ l.take n := by
  intro x hx
  have heq : l.take m = (l.take n).take m := by
    rw [List.take_take, Nat.min_eq_left h]
  exact List.take_subset _ _ (heq ▸ hx)

theorem prefix_index_build_mono (tok : String → List Token) (p₁ p₂ : Nat → Nat)
    (hp : ∀ n, p₂ n ≤ p₁ n) (f : Token → Nat) (ldict : List (Cell × Row))
    (fi : Nat) :
    prefix_index_build ⟨tok, p₂⟩ f ldict fi ⊆
      prefix_index_build ⟨tok, p₁⟩ f ldict fi := by
  intro pr hpr
  unfold prefix_index_build at hpr ⊢
  dsimp only at hpr ⊢
  obtain ⟨e, he, hin⟩ := List.mem_flatMap.mp hpr
  refine List.mem_flatMap.mpr ⟨e, he, ?_⟩
  cases hcell : cellAt e.2 fi with
  | none =>
    rw [hcell] at hin
    dsimp only at hin
    exact absurd hin (by simp)
  | some s =>
    rw [hcell] at hin
    dsimp only at hin ⊢
    cases hse : s.isEmpty with
    | true =>
      rw [hse] at hin
      simp only [eq_self_iff_true, if_true] at hin
      exact absurd hin (by simp)
    | false =>
      rw [hse] at hin
      simp only [Bool.false_eq_true, if_false] at hin
      simp only [Bool.false_eq_true, if_false]
      exact List.map_subset _ (take_subset_take _ (hp _)) hin

theorem probe_mono {idx₁ idx₂ : List (Token × Cell)} (h : idx₂ ⊆ idx₁)
    (t : Token) : probe idx₂ t ⊆ probe idx₁ t :=
  fun _cd hcd => probe_mem_iff.mpr (h (probe_mem_iff.mp hcd))

theorem candidatesOf_mono (tok : String → List Token) (p₁ p₂ : Nat → Nat)
    (hp : ∀ n, p₂ n ≤ p₁ n) (f : Token → Nat) {idx₁ idx₂ : List (Token × Cell)}
    (hidx : idx₂ ⊆ idx₁) (fi : Nat) (r : Row) :
    candidatesOf ⟨tok, p₂⟩ f idx₂ fi r ⊆ candidatesOf ⟨tok, p₁⟩ f idx₁ fi r := by
  intro cd hcd
  unfold candidatesOf at hcd ⊢
  dsimp only at hcd ⊢
  rw [List.mem_dedup] at hcd ⊢
  obtain ⟨t, ht, hpt⟩ := List.mem_flatMap.mp hcd
  exact List.mem_flatMap.mpr
    ⟨t, take_subset_take _ (hp _) ht, probe_mono hidx t hpt⟩

theorem filterLoop_length_mono (tok : String → List Token) (p₁ p₂ : Nat → Nat)
    (hp : ∀ n, p₂ n ≤ p₁ n) (f : Token → Nat) {idx₁ idx₂ : List (Token × Cell)}
    (hidx : idx₂ ⊆ idx₁) (ld : List (Cell × Row)) (c : ResolvedCols) (ho : Bool) :
    ∀ (rs : List Row) (cid₁ cid₂ : Nat),
      (filterLoop ⟨tok, p₂⟩ f idx₂ ld c ho rs cid₂).length ≤
        (filterLoop ⟨tok, p₁⟩ f idx₁ ld c ho rs cid₁).length := by
  intro rs
  induction rs with
  | nil => intro _ _; exact Nat.le_refl 0
  | cons r rest ih =>
    intro cid₁ cid₂
    cases hs : (pyStr (cellAt r c.r_filter_idx)).isEmpty with
    | true =>
      simp only [filterLoop, hs, eq_self_iff_true, if_true]
      exact ih _ _
    | false =>
      simp only [filterLoop, hs, Bool.false_eq_true, if_false, List.length_append]
      rw [emitCands_length, emitCands_length]
      have hc : (candidatesOf ⟨tok, p₂⟩ f idx₂ c.r_filter_idx r).length ≤
          (candidatesOf ⟨tok, p₁⟩ f idx₁ c.r_filter_idx r).length :=
        (List.subperm_of_subset (candidatesOf_nodup _ _ _ _ _)
          (candidatesOf_mono tok p₁ p₂ hp f hidx c.r_filter_idx r)).length_le
      exact Nat.add_le_add hc (ih _ _)

/-- C8: for fixed tables, tokenizer and measure, making the threshold
stricter — which, by the Prefix Length Calculator contract, makes every
prefix length no larger — never increases the number of candidate rows
emitted by `filter_tables`. -/
theorem filter_tables_threshold_monotone (tok : String → List Token)
    (p₁ p₂ : Nat → Nat) (hp : ∀ n, p₂ n ≤ p₁ n) (ltable rtable : Table)
    (lka rka lfa rfa : String) (loa roa : Option (List String))
    (lpx rpx : String) :
    out_count ((⟨tok, p₂⟩ : PrefixFilter).filter_tables ltable rtable
        lka rka lfa rfa loa roa lpx rpx) ≤
      out_count ((⟨tok, p₁⟩ : PrefixFilter).filter_tables ltable rtable
        lka rka lfa rfa loa roa lpx rpx) := by
  unfold PrefixFilter.filter_tables
  cases hres : resolveCols ltable.header rtable.header lka rka lfa rfa loa roa with
  | error e =>
    exact Nat.le_refl _
  | ok c =>
    unfold out_count
    dsimp only
    exact filterLoop_length_mono tok p₁ p₂ hp _
      (prefix_index_build_mono tok p₁ p₂ hp _ _ _) _ _ _ _ 1 1

/-- Witness for C8 at a concrete input: prefix length `n - 1` (stricter)
versus `n` (threshold 0). -/
theorem filter_tables_threshold_monotone_witness :
    out_count ((⟨wsTokenize, fun n => n - 1⟩ : PrefixFilter).filter_tables
        ⟨["id", "a"], [[some "1", some "x y"]]⟩
        ⟨["id", "a"], [[some "7", some "x z"]]⟩
        "id" "id" "a" "a" none none "l_" "r_") ≤
      out_count ((⟨wsTokenize, fun n => n⟩ : PrefixFilter).filter_tables
        ⟨["id", "a"], [[some "1", some "x y"]]⟩
        ⟨["id", "a"], [[some "7", some "x z"]]⟩
        "id" "id" "a" "a" none none "l_" "r_") :=
  filter_tables_threshold_monotone wsTokenize (fun n => n) (fun n => n - 1)
    (fun n => Nat.sub_le n 1) ⟨["id", "a"], [[some "1", some "x y"]]⟩
    ⟨["id", "a"], [[some "7", some "x z"]]⟩ "id" "id" "a" "a" none none "l_" "r_"

/-! ### Claim C9: duplicated keys silently keep the last row -/

theorem buildDict_idem (rows : List Row) (k : Nat) :
    buildDict ((buildDict rows k).map Prod.snd) k = buildDict rows k := by
  have hnd : (((buildDict rows k).map Prod.snd).map (fun r => cellAt r k)).Nodup := by
    rw [dictValues_keys]
    exact buildDict_keys_nodup rows k
  rw [buildDict_of_nodup _ _ hnd, List.map_map]
  have hid : ∀ e ∈ buildDict rows k,
      ((fun r => (cellAt r k, r)) ∘ Prod.snd) e = e := by
    intro e he
    have hk := buildDict_entry_key rows k e he
    show (cellAt e.2 k, e.2) = e
    rw [← hk]
  rw [List.map_congr_left hid]
  exact List.map_id _

/-- C9: when a key value occurs in more than one row of an input table,
`filter_tables` silently keeps only the last row bearing that key: the
right dictionary holds each right key exactly once (so it is probed at
most once), every dictionary lookup returns the last row with that key,
and the whole call behaves exactly as if each table were replaced by its
keep-last deduplication — with no error raised. -/
theorem filter_tables_duplicate_keys_keep_last (pf : PrefixFilter)
    (lheader rheader : List String) (lrows rrows : List Row)
    (lka rka lfa rfa : String) (loa roa : Option (List String)) (lpx rpx : String)
    (c : ResolvedCols)
    (hres : resolveCols lheader rheader lka rka lfa rfa loa roa = Except.ok c) :
    ((buildDict rrows c.r_key_idx).map Prod.fst).Nodup ∧
    (∀ key, dictGet (buildDict lrows c.l_key_idx) key =
      (lastRowWith lrows c.l_key_idx key).getD []) ∧
    (∃ T, pf.filter_tables ⟨lheader, lrows⟩ ⟨rheader, rrows⟩ lka rka lfa rfa
      loa roa lpx rpx = Except.ok T) ∧
    pf.filter_tables ⟨lheader, lrows⟩ ⟨rheader, rrows⟩ lka rka lfa rfa loa roa
        lpx rpx =
      pf.filter_tables ⟨lheader, (buildDict lrows c.l_key_idx).map Prod.snd⟩
        ⟨rheader, (buildDict rrows c.r_key_idx).map Prod.snd⟩ lka rka lfa rfa
        loa roa lpx rpx := by
  refine ⟨buildDict_keys_nodup rrows c.r_key_idx,
    fun key => buildDict_lastRow lrows c.l_key_idx key, ?_, ?_⟩
  · unfold PrefixFilter.filter_tables
    dsimp only
    rw [hres]
    exact ⟨_, rfl⟩
  · unfold PrefixFilter.filter_tables
    dsimp only
    rw [hres]
    dsimp only
    rw [buildDict_idem, buildDict_idem]

/-- Witness for C9 at concrete tables whose keys are duplicated. -/
theorem filter_tables_duplicate_keys_witness :
    ((buildDict [[some "7", some "x"], [some "7", some "y"]] 0).map
      Prod.fst).Nodup ∧
    dictGet (buildDict [[some "1", some "x"], [some "1", some "y"]] 0)
        (some "1") =
      (lastRowWith [[some "1", some "x"], [some "1", some "y"]] 0
        (some "1")).getD [] ∧
    (∃ T, pfAll.filter_tables
        ⟨["id", "a"], [[some "1", some "x"], [some "1", some "y"]]⟩
        ⟨["id", "a"], [[some "7", some "x"], [some "7", some "y"]]⟩
        "id" "id" "a" "a" none none "l_" "r_" = Except.ok T) ∧
    pfAll.filter_tables ⟨["id", "a"], [[some "1", some "x"], [some "1", some "y"]]⟩
        ⟨["id", "a"], [[some "7", some "x"], [some "7", some "y"]]⟩
        "id" "id" "a" "a" none none "l_" "r_" =
      pfAll.filter_tables
        ⟨["id", "a"],
          (buildDict [[some "1", some "x"], [some "1", some "y"]] 0).map Prod.snd⟩
        ⟨["id", "a"],
          (buildDict [[some "7", some "x"], [some "7", some "y"]] 0).map Prod.snd⟩
        "id" "id" "a" "a" none none "l_" "r_" := by
  have h := filter_tables_duplicate_keys_keep_last pfAll ["id", "a"] ["id", "a"]
    [[some "1", some "x"], [some "1", some "y"]]
    [[some "7", some "x"], [some "7", some "y"]]
    "id" "id" "a" "a" none none "l_" "r_" ⟨0, 1, [], 0, 1, []⟩ (by decide)
  exact ⟨h.1, h.2.1 (some "1"), h.2.2.1, h.2.2.2⟩

/-! ### Claim C3: empty/null text fields and the candidate output -/

/-- Counterexample to C3 as stated: the right record's filter attribute
is null (`none`), yet the pair is emitted — `filter_tables` applies
Python `str()` before its emptiness check, so a null right value becomes
the non-empty string `"None"` and participates in probing; here it
matches a left record whose text is the literal string `"None"`. -/
theorem null_right_record_emitted :
    pfAll.filter_tables ⟨["id", "a"], [[some "1", some "None"]]⟩
        ⟨["id", "a"], [[some "7", none]]⟩ "id" "id" "a" "a" none none
        "l_" "r_" =
      Except.ok ⟨["_id", "id", "id"], [⟨1, some "1", some "7", [], []⟩]⟩ := by
  decide

theorem candidatesOf_mem {pf : PrefixFilter} {f : Token → Nat}
    {idx : List (Token × Cell)} {fi : Nat} {r : Row} {cd : Cell}
    (h : cd ∈ candidatesOf pf f idx fi r) : ∃ t, (t, cd) ∈ idx := by
  unfold candidatesOf at h
  dsimp only at h
  rw [List.mem_dedup] at h
  obtain ⟨t, _, hpt⟩ := List.mem_flatMap.mp h
  exact ⟨t, probe_mem_iff.mp hpt⟩

theorem prefix_index_build_mem {pf : PrefixFilter} {f : Token → Nat}
    {ldict : List (Cell × Row)} {fi : Nat} {t : Token} {k : Cell}
    (h : (t, k) ∈ prefix_index_build pf f ldict fi) :
    ∃ e ∈ ldict, e.1 = k ∧
      ∃ s, cellAt e.2 fi = some s ∧ s.isEmpty = false := by
  unfold prefix_index_build at h
  obtain ⟨e, he, hin⟩ := List.mem_flatMap.mp h
  refine ⟨e, he, ?_⟩
  cases hcell : cellAt e.2 fi with
  | none =>
    rw [hcell] at hin
    dsimp only at hin
    exact absurd hin (by simp)
  | some s =>
    rw [hcell] at hin
    dsimp only at hin
    cases hse : s.isEmpty with
    | true =>
      rw [hse] at hin
      simp only [eq_self_iff_true, if_true] at hin
      exact absurd hin (by simp)
    | false =>
      rw [hse] at hin
      simp only [Bool.false_eq_true, if_false] at hin
      obtain ⟨t', -, heq⟩ := List.mem_map.mp hin
      exact ⟨congrArg Prod.snd heq, s, rfl, hse⟩

theorem emitCands_mem {ld : List (Cell × Row)} {c : ResolvedCols} {ho : Bool}
    {rk : Cell} {rr : Row} :
    ∀ {cands : List Cell} {cid : Nat} {row : OutRow},
      row ∈ emitCands ld c ho rk rr cands cid →
      row.l_key ∈ cands ∧ row.r_key = rk := by
  intro cands
  induction cands with
  | nil => intro cid row h; exact absurd h (by simp [emitCands])
  | cons cd rest ih =>
    intro cid row h
    rcases List.mem_cons.mp h with h | h
    · rw [h]
      cases ho <;> exact ⟨List.mem_cons_self _ _, rfl⟩
    · obtain ⟨h1, h2⟩ := ih h
      exact ⟨List.mem_cons_of_mem _ h1, h2⟩

theorem filterLoop_row_mem (pf : PrefixFilter) (f : Token → Nat)
    (idx : List (Token × Cell)) (ld : List (Cell × Row)) (c : ResolvedCols)
    (ho : Bool) :
    ∀ (rs : List Row) (cid : Nat) (out : OutRow),
      out ∈ filterLoop pf f idx ld c ho rs cid →
      ∃ r ∈ rs, (pyStr (cellAt r c.r_filter_idx)).isEmpty = false ∧
        out.r_key = cellAt r c.r_key_idx ∧
        out.l_key ∈ candidatesOf pf f idx c.r_filter_idx r := by
  intro rs
  induction rs with
  | nil => intro cid out h; exact absurd h (by simp [filterLoop])
  | cons r rest ih =>
    intro cid out h
    cases hs : (pyStr (cellAt r c.r_filter_idx)).isEmpty with
    | true =>
      simp only [filterLoop, hs, eq_self_iff_true, if_true] at h
      obtain ⟨r', hr', hrest⟩ := ih _ _ h
      exact ⟨r', List.mem_cons_of_mem _ hr', hrest⟩
    | false =>
      simp only [filterLoop, hs, Bool.false_eq_true, if_false] at h
      rcases List.mem_append.mp h with h | h
      · obtain ⟨h1, h2⟩ := emitCands_mem h
        exact ⟨r, List.mem_cons_self _ _, hs, h2, h1⟩
      · obtain ⟨r', hr', hrest⟩ := ih _ _ h
        exact ⟨r', List.mem_cons_of_mem _ hr', hrest⟩

/-- C3 (amended): a record whose text field *stringifies to the empty
string* never appears as either side of an emitted candidate row, and
left records with null text are also excluded (the index build skips
empty/null); but a null right-side text field is rendered by `str()` as
the non-empty string `"None"` and can appear (see
`null_right_record_emitted`).  Exclusion is silent: the call still
succeeds. -/
theorem empty_text_never_in_output (pf : PrefixFilter) (ltable rtable : Table)
    (lka rka lfa rfa : String) (loa roa : Option (List String)) (lpx rpx : String)
    (c : ResolvedCols) (T : OutTable)
    (hres : resolveCols ltable.header rtable.header lka rka lfa rfa loa roa =
      Except.ok c)
    (hok : pf.filter_tables ltable rtable lka rka lfa rfa loa roa lpx rpx =
      Except.ok T) :
    ∀ out ∈ T.rows,
      (∀ e ∈ buildDict ltable.rows c.l_key_idx, e.1 = out.l_key →
        ∃ s, cellAt e.2 c.l_filter_idx = some s ∧ s.isEmpty = false) ∧
      (∀ e ∈ buildDict rtable.rows c.r_key_idx, e.1 = out.r_key →
        (pyStr (cellAt e.2 c.r_filter_idx)).isEmpty = false) := by
  intro out hout
  rw [filter_tables_ok_rows pf ltable rtable lka rka lfa rfa loa roa lpx rpx
    hres hok] at hout
  obtain ⟨r, hr, hne, hrkey, hcand⟩ :=
    filterLoop_row_mem _ _ _ _ _ _ _ _ _ hout
  constructor
  · intro e he hekey
    obtain ⟨t, htk⟩ := candidatesOf_mem hcand
    obtain ⟨e', he', hk', s, hcell, hse⟩ := prefix_index_build_mem htk
    have heq : e = e' :=
      assoc_nodup_eq (buildDict_keys_nodup ltable.rows c.l_key_idx) he he'
        (by rw [hekey, hk'])
    rw [heq]
    exact ⟨s, hcell, hse⟩
  · intro e he hekey
    obtain ⟨e'', he'', hre⟩ := List.mem_map.mp hr
    have hk'' : e''.1 = out.r_key := by
      rw [buildDict_entry_key rtable.rows c.r_key_idx e'' he'', hre, ← hrkey]
    have heq : e = e'' :=
      assoc_nodup_eq (buildDict_keys_nodup rtable.rows c.r_key_idx) he he''
        (by rw [hekey, hk''])
    rw [heq, hre]
    exact hne

/-- Witness for the amended C3 at a concrete input. -/
theorem empty_text_never_in_output_witness :
    (∃ s, cellAt [some "1", some "mouse"] 1 = some s ∧ s.isEmpty = false) ∧
    (pyStr (cellAt [some "7", some "mouse pad"] 1)).isEmpty = false := by
  have h := empty_text_never_in_output pfAll
    ⟨["id", "a"], [[some "1", some "mouse"]]⟩
    ⟨["id", "a"], [[some "7", some "mouse pad"]]⟩ "id" "id" "a" "a" none none
    "l_" "r_" ⟨0, 1, [], 0, 1, []⟩
    ⟨["_id", "id", "id"], [⟨1, some "1", some "7", [], []⟩]⟩ (by decide) (by decide)
  have h2 := h ⟨1, some "1", some "7", [], []⟩ (by decide)
  exact ⟨h2.1 (some "1", [some "1", some "mouse"]) (by decide) rfl,
    h2.2 (some "7", [some "7", some "mouse pad"]) (by decide) rfl⟩

end PySSJ
